import Mathlib

/-!
Shallow embedding of the ep_vim modal-editing core (static/js/vim-core.js and
the plugin key-handler file) and proofs about its motion calculus, selection
normalizer and operator appliers.

Conventions of the embedding:
* a line of text is a `List Char`; a buffer (`rep.lines`) is a `List (List Char)`;
* character offsets and line indices are `Nat` except where the source works
  with possibly negative values (backward scans, `clampChar`), which use `Int`;
* JS `str[i]` is `List.get?`; an out-of-range read yields `undefined`, and
  `/\w/.test(undefined)` is `true` while `/\s/.test(undefined)` is `false`
  (the regex coerces `undefined` to the string "undefined"), which the
  `...At` lookup predicates reproduce;
* `while` loops become structural recursion on an explicit bound (`fuel`)
  that the wrappers instantiate with a value larger than the number of
  iterations the loop guard permits, so every definition evaluates by `decide`;
* the host mutation `replaceRange` (Etherpad's
  `ace_performDocumentReplaceRange`) is out of the repository; it is modelled
  as the standard text-range splice on the line list, per the spec's
  "request a text substitution" contract.
-/

/-- JS `/\w/.test(ch)` for a one-character string: ASCII letters, digits, `_`. -/
def isWordChar (c : Char) : Bool :=
  (65 ≤ c.toNat && c.toNat ≤ 90) || (97 ≤ c.toNat && c.toNat ≤ 122) ||
    (48 ≤ c.toNat && c.toNat ≤ 57) || c.toNat = 95

/-- JS `/\s/.test(ch)` for a one-character string: the ECMAScript whitespace set. -/
def isWhitespace (c : Char) : Bool :=
  c.toNat = 32 || c.toNat = 9 || c.toNat = 10 || c.toNat = 11 || c.toNat = 12 ||
    c.toNat = 13 || c.toNat = 160 || c.toNat = 5760 ||
    (8192 ≤ c.toNat && c.toNat ≤ 8202) || c.toNat = 8232 || c.toNat = 8233 ||
    c.toNat = 8239 || c.toNat = 8287 || c.toNat = 12288 || c.toNat = 65279

/-- JS `isWordChar(lineText[i])`: out of range, `lineText[i]` is `undefined`
and `/\w/.test(undefined)` is `true`. -/
def isWordCharAt (l : List Char) (i : Nat) : Bool :=
  match l.get? i with
  | some c => isWordChar c
  | none => true

/-- JS `isWhitespace(lineText[i])`: out of range, `/\s/.test(undefined)` is `false`. -/
def isWhitespaceAt (l : List Char) (i : Nat) : Bool :=
  match l.get? i with
  | some c => isWhitespace c
  | none => false

/-- JS `Math.max(0, Math.min(char, lineText.length - 1))` on an arbitrary integer offset. -/
def clampChar (char : Int) (lineText : List Char) : Int :=
  max 0 (min char ((lineText.length : Int) - 1))

/-- `clampChar` specialized to the nonnegative offsets the interpreter feeds it. -/
def clampCharN (char : Nat) (lineText : List Char) : Nat :=
  min char (lineText.length - 1)

/-- JS `Math.max(0, Math.min(line, rep.lines.length() - 1))` for the nonnegative
line indices the interpreter feeds it. -/
def clampLineN (line : Nat) (rep : List (List Char)) : Nat :=
  min line (rep.length - 1)

/-- JS `rep.lines.atIndex(line).text`. -/
def getLineText (rep : List (List Char)) (line : Nat) : List Char :=
  rep.getD line []

/-- A `while (p pos) pos++` loop; `fuel` bounds the number of iterations. -/
def scanWhile (p : Nat → Bool) : Nat → Nat → Nat
  | 0, pos => pos
  | fuel + 1, pos => if p pos then scanWhile p fuel (pos + 1) else pos

/-- A `while (p pos) pos--` loop on a possibly negative JS index. -/
def scanBackWhile (p : Int → Bool) : Nat → Int → Int
  | 0, pos => pos
  | fuel + 1, pos => if p pos then scanBackWhile p fuel (pos - 1) else pos

/-- `-1`-sentinel view of an optional offset, as the JS search helpers return it. -/
def optInt : Option Nat → Int
  | some k => (k : Int)
  | none => -1

/-- Loop body of `findCharForward`: scan `i, i+1, ...` (`fuel` = remaining
iterations of `for (i = startChar + 1; i < lineText.length; i++)`), counting
matches until the `count`-th. -/
def findCharForwardAux (l : List Char) (t : Char) (count : Nat) : Nat → Nat → Nat → Int
  | 0, _, _ => -1
  | fuel + 1, i, found =>
    if l.get? i = some t then
      if found + 1 = count then (i : Int)
      else findCharForwardAux l t count fuel (i + 1) (found + 1)
    else findCharForwardAux l t count fuel (i + 1) found

/-- JS `findCharForward(lineText, startChar, targetChar, count)`. -/
def findCharForward (l : List Char) (startChar : Nat) (t : Char) (count : Nat) : Int :=
  findCharForwardAux l t count (l.length - (startChar + 1)) (startChar + 1) 0

/-- Ascending list of offsets `j ≥ i` with `l[j] = t` (`fuel` = remaining indices). -/
def occsFromAux (l : List Char) (t : Char) : Nat → Nat → List Nat
  | 0, _ => []
  | fuel + 1, i =>
    if l.get? i = some t then i :: occsFromAux l t fuel (i + 1)
    else occsFromAux l t fuel (i + 1)

/-- Ascending list of all offsets `j ≥ i` at which `l[j] = t`. -/
def occsFrom (l : List Char) (t : Char) (i : Nat) : List Nat :=
  occsFromAux l t (l.length - i) i

/-- Loop body of `findCharBackward`: scan `i-1, i-2, ..., 0` (first argument is
the exclusive upper bound, mirroring `for (i = startChar - 1; i >= 0; i--)`). -/
def findCharBackwardAux (l : List Char) (t : Char) (count : Nat) : Nat → Nat → Int
  | 0, _ => -1
  | i + 1, found =>
    if l.get? i = some t then
      if found + 1 = count then (i : Int)
      else findCharBackwardAux l t count i (found + 1)
    else findCharBackwardAux l t count i found

/-- JS `findCharBackward(lineText, startChar, targetChar, count)`. -/
def findCharBackward (l : List Char) (startChar : Nat) (t : Char) (count : Nat) : Int :=
  findCharBackwardAux l t count startChar 0

/-- Descending list of all offsets `j < m` at which `l[j] = t`. -/
def occsBelow (l : List Char) (t : Char) : Nat → List Nat
  | 0 => []
  | m + 1 =>
    if l.get? m = some t then m :: occsBelow l t m
    else occsBelow l t m

/-- Guard of `while (pos < lineText.length && isWordChar(lineText[pos]))`. -/
def wordCond (l : List Char) (i : Nat) : Bool :=
  decide (i < l.length) && isWordCharAt l i

/-- Guard of `while (pos < len && !isWordChar(lineText[pos]) && !isWhitespace(lineText[pos]))`. -/
def punctCond (l : List Char) (i : Nat) : Bool :=
  decide (i < l.length) && !isWordCharAt l i && !isWhitespaceAt l i

/-- Guard of `while (pos < lineText.length && isWhitespace(lineText[pos]))`. -/
def wsCond (l : List Char) (i : Nat) : Bool :=
  decide (i < l.length) && isWhitespaceAt l i

/-- The `while (pos < len && isWhitespace(lineText[pos])) pos++` loop shared by
the word motions. -/
def wsSkip (l : List Char) (pos : Nat) : Nat :=
  scanWhile (wsCond l) (l.length + 1) pos

/-- JS `wordForward(lineText, startChar)`. -/
def wordForward (l : List Char) (startChar : Nat) : Nat :=
  wsSkip l
    (if wordCond l startChar then scanWhile (wordCond l) (l.length + 1) startChar
     else if decide (startChar < l.length) && !isWhitespaceAt l startChar then
       scanWhile (punctCond l) (l.length + 1) startChar
     else startChar)

/-- JS `firstNonBlank(lineText)`. -/
def firstNonBlank (l : List Char) : Nat :=
  wsSkip l 0

/-- Guard of `wordEnd`'s `while (pos + 1 < len && isWordChar(lineText[pos + 1]))`. -/
def wordEndWordCond (l : List Char) (i : Nat) : Bool :=
  decide (i + 1 < l.length) && isWordCharAt l (i + 1)

/-- Guard of `wordEnd`'s punctuation-run lookahead loop. -/
def wordEndPunctCond (l : List Char) (i : Nat) : Bool :=
  decide (i + 1 < l.length) && !isWordCharAt l (i + 1) && !isWhitespaceAt l (i + 1)

/-- JS `wordEnd(lineText, startChar)`. -/
def wordEnd (l : List Char) (startChar : Nat) : Nat :=
  if wordCond l (wsSkip l (startChar + 1)) then
    scanWhile (wordEndWordCond l) (l.length + 1) (wsSkip l (startChar + 1))
  else
    scanWhile (wordEndPunctCond l) (l.length + 1) (wsSkip l (startChar + 1))

/-- JS predicates applied at a possibly negative index (the guards test `0 ≤ i` first). -/
def isWordCharAtI (l : List Char) (i : Int) : Bool := isWordCharAt l i.toNat

def isWhitespaceAtI (l : List Char) (i : Int) : Bool := isWhitespaceAt l i.toNat

/-- Guard of `wordBackward`'s `while (pos >= 0 && isWhitespace(lineText[pos]))`. -/
def wsBackCond (l : List Char) (i : Int) : Bool :=
  decide ((0 : Int) ≤ i) && isWhitespaceAtI l i

/-- Guard of `wordBackward`'s `while (pos > 0 && isWordChar(lineText[pos - 1]))`. -/
def wordBackCond (l : List Char) (i : Int) : Bool :=
  decide ((0 : Int) < i) && isWordCharAtI l (i - 1)

/-- Guard of `wordBackward`'s backward punctuation-run loop. -/
def punctBackCond (l : List Char) (i : Int) : Bool :=
  decide ((0 : Int) < i) && !isWordCharAtI l (i - 1) && !isWhitespaceAtI l (i - 1)

/-- `wordBackward`'s leading `while (pos >= 0 && isWhitespace(lineText[pos])) pos--`. -/
def wsSkipBack (l : List Char) (fuel : Nat) (pos : Int) : Int :=
  scanBackWhile (wsBackCond l) fuel pos

/-- JS `wordBackward(lineText, startChar)`; the scan index is an `Int` because
`pos` starts at `startChar - 1` and the loops stop at `-1`. -/
def wordBackward (l : List Char) (startChar : Nat) : Nat :=
  (max 0
    (if decide ((0 : Int) ≤ wsSkipBack l (startChar + 1) ((startChar : Int) - 1)) &&
        isWordCharAtI l (wsSkipBack l (startChar + 1) ((startChar : Int) - 1)) then
      scanBackWhile (wordBackCond l) (startChar + 1)
        (wsSkipBack l (startChar + 1) ((startChar : Int) - 1))
    else
      scanBackWhile (punctBackCond l) (startChar + 1)
        (wsSkipBack l (startChar + 1) ((startChar : Int) - 1)))).toNat

/-- JS `charSearchPos(direction, lineText, char, targetChar, count)`. -/
def charSearchPos (direction : Char) (lineText : List Char) (char : Nat)
    (targetChar : Char) (count : Nat) : Int :=
  if direction = 'f' then findCharForward lineText char targetChar count
  else if direction = 'F' then findCharBackward lineText char targetChar count
  else if direction = 't' then
    if findCharForward lineText char targetChar count ≠ -1 then
      findCharForward lineText char targetChar count - 1
    else findCharForward lineText char targetChar count
  else if direction = 'T' then
    if findCharBackward lineText char targetChar count ≠ -1 then
      findCharBackward lineText char targetChar count + 1
    else findCharBackward lineText char targetChar count
  else -1

/-- JS `motionRange(key, char, lineText, count)` (the `for` loops are
`count`-fold iteration). -/
def motionRange (key : Char) (char : Nat) (lineText : List Char) (count : Nat) :
    Option (Nat × Nat) :=
  if key = 'w' then
    some (char, min ((fun p => wordForward lineText p)^[count] char) lineText.length)
  else if key = 'e' then
    some (char, min ((fun p => wordEnd lineText p)^[count] char + 1) lineText.length)
  else if key = 'b' then
    some ((fun p => wordBackward lineText p)^[count] char, char)
  else if key = '$' then some (char, lineText.length)
  else if key = '0' then some (0, char)
  else if key = '^' then
    some (min char (firstNonBlank lineText), max char (firstNonBlank lineText))
  else if key = 'h' then some (char - count, char)
  else if key = 'l' then some (char, min (char + count) lineText.length)
  else none

/-- The `start`/`end` pair `charMotionRange` assigns before its final
`end > start` check. -/
def charMotionEndpoints (motion : Char) (char pos : Nat) : Nat × Nat :=
  if motion = 'f' then (char, pos + 1)
  else if motion = 't' then (char, pos + 1)
  else if motion = 'F' then (pos, char + 1)
  else if motion = 'T' then (pos, char)
  else (char, char)

/-- JS `charMotionRange(motion, char, pos)`. -/
def charMotionRange (motion : Char) (char pos : Nat) : Option (Nat × Nat) :=
  if (charMotionEndpoints motion char pos).2 > (charMotionEndpoints motion char pos).1 then
    some (charMotionEndpoints motion char pos)
  else none

/-- JS `lineText.indexOf(target, i)` scan (`fuel` = remaining indices). -/
def indexOfAux (l : List Char) (t : Char) : Nat → Nat → Int
  | 0, _ => -1
  | fuel + 1, i => if l.get? i = some t then (i : Int) else indexOfAux l t fuel (i + 1)

/-- JS `lineText.indexOf(target, i)`. -/
def indexOfFrom (l : List Char) (t : Char) (i : Nat) : Int :=
  indexOfAux l t (l.length - i) i

/-- JS `innerQuoteRange(lineText, char, quote)`. -/
def innerQuoteRange (lineText : List Char) (char : Nat) (quote : Char) :
    Option (Nat × Nat) :=
  if indexOfFrom lineText quote 0 = -1 then none
  else if indexOfFrom lineText quote ((indexOfFrom lineText quote 0).toNat + 1) = -1 then none
  else if char < (indexOfFrom lineText quote 0).toNat ∨
      (indexOfFrom lineText quote ((indexOfFrom lineText quote 0).toNat + 1)).toNat < char then
    none
  else
    some ((indexOfFrom lineText quote 0).toNat + 1,
      (indexOfFrom lineText quote ((indexOfFrom lineText quote 0).toNat + 1)).toNat)

/-- The two visual-selection kinds (`visualMode === 'line'` vs `'char'`). -/
inductive VisualKind where
  | vchar : VisualKind
  | vline : VisualKind
deriving DecidableEq, Repr

/-- JS `getVisualSelection(visualMode, visualAnchor, visualCursor, rep)`. -/
def getVisualSelection (visualMode : VisualKind) (visualAnchor visualCursor : Nat × Nat)
    (rep : List (List Char)) : (Nat × Nat) × (Nat × Nat) :=
  match visualMode with
  | .vline =>
      ((min visualAnchor.1 visualCursor.1, 0),
        if max visualAnchor.1 visualCursor.1 + 1 < rep.length then
          (max visualAnchor.1 visualCursor.1 + 1, 0)
        else
          (max visualAnchor.1 visualCursor.1,
            (getLineText rep (max visualAnchor.1 visualCursor.1)).length))
  | .vchar =>
      if visualAnchor.1 < visualCursor.1 ∨
          (visualAnchor.1 = visualCursor.1 ∧ visualAnchor.2 ≤ visualCursor.2) then
        (visualAnchor, visualCursor)
      else (visualCursor, visualAnchor)

/-- Lexicographic (line, char) order on positions. -/
def posLE (a b : Nat × Nat) : Prop :=
  a.1 < b.1 ∨ (a.1 = b.1 ∧ a.2 ≤ b.2)

instance (a b : Nat × Nat) : Decidable (posLE a b) := by
  unfold posLE
  infer_instance

/-- JS `str.slice(a, b)`. -/
def jsSlice (l : List Char) (a b : Nat) : List Char :=
  (l.take b).drop a

/-- JS `getTextInRange(rep, start, end)` (multi-line parts joined with `"\n"`). -/
def getTextInRange (rep : List (List Char)) (s e : Nat × Nat) : List Char :=
  if s.1 = e.1 then jsSlice (getLineText rep s.1) s.2 e.2
  else
    List.intercalate ['\n']
      ((getLineText rep s.1).drop s.2 ::
        ((List.range (e.1 - s.1 - 1)).map (fun k => getLineText rep (s.1 + 1 + k)) ++
          [jsSlice (getLineText rep e.1) 0 e.2]))

/-- Helper of the host-edit model: append `post` to the last line. -/
def spliceTail (post : List Char) : List (List Char) → List (List Char)
  | [] => [post]
  | [t] => [t ++ post]
  | t :: ts => t :: spliceTail post ts

/-- Helper of the host-edit model: glue the kept prefix of the start line and
the kept suffix of the end line around the replacement lines. -/
def spliceLines (pre post : List Char) : List (List Char) → List (List Char)
  | [] => [pre ++ post]
  | [t] => [pre ++ t ++ post]
  | t :: ts => (pre ++ t) :: spliceTail post ts

/-- Modelled from the spec: the host's `replaceRange(start, end, text)`
(Etherpad's `ace_performDocumentReplaceRange`, not part of this repository) —
"request a text substitution": the characterwise span `[start, end)` of the
buffer is replaced by the given replacement lines (the empty string is the
single empty line `[[]]`). -/
def replaceRangeBuf (buf : List (List Char)) (s e : Nat × Nat)
    (textLines : List (List Char)) : List (List Char) :=
  buf.take s.1 ++
    spliceLines ((getLineText buf s.1).take s.2) ((getLineText buf e.1).drop e.2) textLines ++
    buf.drop (e.1 + 1)

/-- The register: JS `setRegister` stores a string (characterwise) or an array
of line strings (linewise). -/
inductive Register where
  | charwise : List Char → Register
  | linewise : List (List Char) → Register
deriving DecidableEq, Repr

/-- The interpreter-visible editing state one key event acts on: the buffer
snapshot, the register, the insert-mode flag and the cursor. -/
structure EdState where
  buffer : List (List Char)
  register : Option Register
  insertMode : Bool
  cursor : Nat × Nat
deriving DecidableEq, Repr

/-- JS `applyCharOperator(operator, start, end, editorInfo, rep)`. -/
def applyCharOperator (op : Char) (s e : Nat × Nat) (st : EdState) : EdState :=
  let reg : Option Register :=
    some (Register.charwise
      (if s.1 = e.1 then jsSlice (getLineText st.buffer s.1) s.2 e.2
       else getTextInRange st.buffer s e))
  if op = 'y' then { st with register := reg, cursor := s }
  else if op = 'c' then
    { buffer := replaceRangeBuf st.buffer s e [[]], register := reg,
      insertMode := true, cursor := s }
  else
    { buffer := replaceRangeBuf st.buffer s e [[]], register := reg,
      insertMode := st.insertMode,
      cursor := (s.1, clampCharN s.2 (getLineText (replaceRangeBuf st.buffer s e [[]]) s.1)) }

/-- JS `deleteLines(editorInfo, rep, topLine, bottomLine)`: the mutated buffer
paired with the returned cursor line. -/
def deleteLines (buf : List (List Char)) (topLine bottomLine : Nat) :
    List (List Char) × Nat :=
  if bottomLine = buf.length - 1 ∧ 0 < topLine then
    (replaceRangeBuf buf (topLine - 1, (getLineText buf (topLine - 1)).length)
      (bottomLine, (getLineText buf bottomLine).length) [[]], topLine - 1)
  else if bottomLine < buf.length - 1 then
    (replaceRangeBuf buf (topLine, 0) (bottomLine + 1, 0) [[]], topLine)
  else
    (replaceRangeBuf buf (0, 0) (bottomLine, (getLineText buf bottomLine).length) [[]], 0)

/-- The lines `applyLineOperator` collects for the register. -/
def linesBetween (buf : List (List Char)) (topLine bottomLine : Nat) : List (List Char) :=
  (List.range (bottomLine + 1 - topLine)).map (fun k => getLineText buf (topLine + k))

/-- The `c` loop of `applyLineOperator`: for each selected line, clear the span
`[topLine, 0]..[topLine, (current line i).length]` of the current buffer. -/
def changeLinesAux (topLine : Nat) : Nat → Nat → List (List Char) → List (List Char)
  | _, 0, buf => buf
  | i, n + 1, buf =>
    changeLinesAux topLine (i + 1) n
      (replaceRangeBuf buf (topLine, 0) (topLine, (getLineText buf i).length) [[]])

/-- JS `applyLineOperator(operator, topLine, bottomLine, editorInfo, rep, char)`. -/
def applyLineOperator (op : Char) (topLine bottomLine : Nat) (char : Nat)
    (st : EdState) : EdState :=
  let reg : Option Register := some (Register.linewise (linesBetween st.buffer topLine bottomLine))
  if op = 'y' then { st with register := reg, cursor := (topLine, 0) }
  else if op = 'c' then
    { buffer := changeLinesAux topLine topLine (bottomLine + 1 - topLine) st.buffer,
      register := reg, insertMode := true, cursor := (topLine, 0) }
  else
    { buffer := (deleteLines st.buffer topLine bottomLine).1, register := reg,
      insertMode := st.insertMode,
      cursor := ((deleteLines st.buffer topLine bottomLine).2,
        clampCharN char
          (getLineText (deleteLines st.buffer topLine bottomLine).1
            (deleteLines st.buffer topLine bottomLine).2)) }

/-- The plain-motion tail of `handleKey`'s operator-pending branch:
`const range = motionRange(key, char, lineText, count); if (range && range.end > range.start) applyCharOperator(...)`. -/
def opPendingMotionStep (op key : Char) (count : Nat) (st : EdState) : EdState :=
  match motionRange key st.cursor.2 (getLineText st.buffer st.cursor.1) count with
  | some r =>
      if r.2 > r.1 then applyCharOperator op (st.cursor.1, r.1) (st.cursor.1, r.2) st
      else st
  | none => st

/-- `handleKey`'s operator-pending `f`/`F`/`t`/`T` branch. -/
def opPendingCharSearchStep (op direction target : Char) (count : Nat) (st : EdState) :
    EdState :=
  if charSearchPos direction (getLineText st.buffer st.cursor.1) st.cursor.2 target count
      = -1 then st
  else
    match charMotionRange direction st.cursor.2
        (charSearchPos direction (getLineText st.buffer st.cursor.1) st.cursor.2
          target count).toNat with
    | some r => applyCharOperator op (st.cursor.1, r.1) (st.cursor.1, r.2) st
    | none => st

/-- `handleKey`'s doubled-operator branch (`dd`/`cc`/`yy`):
`opCount = min(count, lineCount - line); lastLine = line + opCount - 1`. -/
def opDoubledStep (op : Char) (count : Nat) (st : EdState) : EdState :=
  applyLineOperator op st.cursor.1
    (st.cursor.1 + min count (st.buffer.length - st.cursor.1) - 1) st.cursor.2 st

/-- The cursor-motion state `resolveMotion` reads and writes: position plus the
`desiredColumn` memory used by `j`/`k`. -/
structure NavState where
  line : Nat
  char : Nat
  desiredColumn : Option Nat
deriving DecidableEq, Repr

/-- The count-repeatable cursor-motion branches (`h l j k w b e`) of the plugin's
`resolveMotion(key, line, char, lineText, rep, count)`; other keys are out of
scope here and map to `none`. -/
def resolveMotionNav (key : Char) (rep : List (List Char)) (count : Nat)
    (s : NavState) : Option NavState :=
  if key = 'h' then some ⟨s.line, s.char - count, none⟩
  else if key = 'l' then
    some ⟨s.line, clampCharN (s.char + count) (getLineText rep s.line), none⟩
  else if key = 'j' then
    some ⟨clampLineN (s.line + count) rep,
      clampCharN (s.desiredColumn.getD s.char) (getLineText rep (clampLineN (s.line + count) rep)),
      some (s.desiredColumn.getD s.char)⟩
  else if key = 'k' then
    some ⟨clampLineN (s.line - count) rep,
      clampCharN (s.desiredColumn.getD s.char) (getLineText rep (clampLineN (s.line - count) rep)),
      some (s.desiredColumn.getD s.char)⟩
  else if key = 'w' then
    some ⟨s.line,
      clampCharN ((fun p => wordForward (getLineText rep s.line) p)^[count] s.char)
        (getLineText rep s.line), none⟩
  else if key = 'b' then
    some ⟨s.line, (fun p => wordBackward (getLineText rep s.line) p)^[count] s.char, none⟩
  else if key = 'e' then
    some ⟨s.line,
      clampCharN ((fun p => wordEnd (getLineText rep s.line) p)^[count] s.char)
        (getLineText rep s.line), none⟩
  else none

/-- The single-step (count 1) motion as a total state transformer. -/
def navStep (key : Char) (rep : List (List Char)) (s : NavState) : NavState :=
  (resolveMotionNav key rep 1 s).getD s

/-- The offsets `findCharForward(l, p, t, n)` returns over all counts `n`
(`n` up to the line length exhausts every possible match). -/
def fwdMatches (l : List Char) (p : Nat) (t : Char) : List Int :=
  ((List.range' 1 l.length).map (fun n => findCharForward l p t n)).filter
    (fun r => decide (r ≠ -1))

/-- The offsets `findCharBackward(l, q, t, n)` returns over all counts `n`. -/
def bwdMatches (l : List Char) (q : Nat) (t : Char) : List Int :=
  ((List.range' 1 l.length).map (fun n => findCharBackward l q t n)).filter
    (fun r => decide (r ≠ -1))

/-- `c` starts a (non-blank) run of the source's three-class word model: the
character at `c` is not whitespace and the previous character, if any, is of a
different class. -/
def isWordStart (l : List Char) (c : Nat) : Prop :=
  c < l.length ∧ isWhitespaceAt l c = false ∧
    (c = 0 ∨ isWhitespaceAt l (c - 1) = true ∨
      isWordCharAt l (c - 1) ≠ isWordCharAt l c)

instance (l : List Char) (c : Nat) : Decidable (isWordStart l c) := by
  unfold isWordStart
  infer_instance

theorem isWordChar_not_isWhitespace {c : Char} (h : isWordChar c = true) :
    isWhitespace c = false := by
  simp [isWordChar, isWhitespace] at *
  omega

theorem isWordCharAt_not_isWhitespaceAt {l : List Char} {i : Nat}
    (h : isWordCharAt l i = true) (hi : i < l.length) : isWhitespaceAt l i = false := by
  unfold isWordCharAt isWhitespaceAt at *
  rcases hg : l.get? i with _ | c
  · exact absurd (List.get?_eq_none.mp hg) (by omega)
  · rw [hg] at h
    exact isWordChar_not_isWhitespace h

theorem clampChar_eq_clampCharN (char : Nat) (l : List Char) :
    clampChar (char : Int) l = (clampCharN char l : Int) := by
  unfold clampChar clampCharN
  omega

theorem scanWhile_ge (p : Nat → Bool) (fuel pos : Nat) :
    pos ≤ scanWhile p fuel pos := by
  induction fuel generalizing pos with
  | zero => simp [scanWhile]
  | succ fuel ih =>
    simp only [scanWhile]
    split
    · exact le_trans (Nat.le_succ pos) (ih (pos + 1))
    · exact le_refl pos

theorem scanWhile_inv (p : Nat → Bool) (fuel pos : Nat) :
    ∀ i, pos ≤ i → i < scanWhile p fuel pos → p i = true := by
  induction fuel generalizing pos with
  | zero => intro i h1 h2; simp [scanWhile] at h2; omega
  | succ fuel ih =>
    intro i h1 h2
    simp only [scanWhile] at h2
    by_cases hp : p pos = true
    · rw [if_pos hp] at h2
      rcases Nat.eq_or_lt_of_le h1 with h | h
      · rwa [h] at hp
      · exact ih (pos + 1) i h h2
    · rw [if_neg hp] at h2; omega

theorem scanWhile_le (p : Nat → Bool) (L : Nat)
    (hL : ∀ i, p i = true → i < L) :
    ∀ fuel pos, pos ≤ L → scanWhile p fuel pos ≤ L := by
  intro fuel
  induction fuel with
  | zero => intro pos h; simpa [scanWhile] using h
  | succ fuel ih =>
    intro pos h
    simp only [scanWhile]
    split
    · next hp => exact ih (pos + 1) (hL pos hp)
    · exact h

theorem scanWhile_stop (p : Nat → Bool) (L : Nat)
    (hL : ∀ i, p i = true → i < L) :
    ∀ fuel pos, pos ≤ L → L + 1 ≤ fuel + pos → p (scanWhile p fuel pos) = false := by
  intro fuel
  induction fuel with
  | zero => intro pos h1 h2; omega
  | succ fuel ih =>
    intro pos h1 h2
    simp only [scanWhile]
    by_cases hp : p pos = true
    · rw [if_pos hp]
      exact ih (pos + 1) (hL pos hp) (by omega)
    · rw [if_neg hp]
      exact eq_false_of_ne_true hp

theorem scanWhile_progress (p : Nat → Bool) (fuel pos : Nat)
    (hp : p pos = true) (hf : 1 ≤ fuel) : pos + 1 ≤ scanWhile p fuel pos := by
  cases fuel with
  | zero => omega
  | succ fuel =>
    simp only [scanWhile, if_pos hp]
    exact scanWhile_ge p fuel (pos + 1)

theorem scanWhile_nomove (p : Nat → Bool) (fuel pos : Nat)
    (hp : p pos = false) : scanWhile p fuel pos = pos := by
  cases fuel with
  | zero => rfl
  | succ fuel => simp [scanWhile, hp]

theorem scanBackWhile_le (p : Int → Bool) (fuel : Nat) (pos : Int) :
    scanBackWhile p fuel pos ≤ pos := by
  induction fuel generalizing pos with
  | zero => simp [scanBackWhile]
  | succ fuel ih =>
    simp only [scanBackWhile]
    split
    · exact le_trans (ih (pos - 1)) (by omega)
    · exact le_refl pos

theorem scanBackWhile_inv (p : Int → Bool) (fuel : Nat) (pos : Int) :
    ∀ i, scanBackWhile p fuel pos < i → i ≤ pos → p i = true := by
  induction fuel generalizing pos with
  | zero => intro i h1 h2; simp [scanBackWhile] at h1; omega
  | succ fuel ih =>
    intro i h1 h2
    simp only [scanBackWhile] at h1
    by_cases hp : p pos = true
    · rw [if_pos hp] at h1
      rcases lt_or_le (scanBackWhile p fuel (pos - 1)) i with _ | _
      · rcases eq_or_lt_of_le h2 with h | h
        · rwa [h]
        · exact ih (pos - 1) i h1 (by omega)
      · omega
    · rw [if_neg hp] at h1; omega

/-- If everything in `(t, pos]` passes the guard and `t` fails it, the backward
scan lands exactly on `t`. -/
theorem scanBackWhile_exact (p : Int → Bool) (t : Int) :
    ∀ (fuel : Nat) (pos : Int), t ≤ pos → (∀ i, t < i → i ≤ pos → p i = true) →
      p t = false → pos - t ≤ (fuel : Int) → scanBackWhile p fuel pos = t := by
  intro fuel
  induction fuel with
  | zero =>
    intro pos h1 _ _ h4
    simp only [scanBackWhile]
    omega
  | succ fuel ih =>
    intro pos h1 h2 h3 h4
    simp only [scanBackWhile]
    rcases eq_or_lt_of_le h1 with h | h
    · rw [← h, h3]
      simp
    · rw [if_pos (h2 pos h (le_refl pos))]
      exact ih (pos - 1) (by omega) (fun i hi1 hi2 => h2 i hi1 (by omega)) h3 (by omega)

theorem scanBackWhile_nomove (p : Int → Bool) (fuel : Nat) (pos : Int)
    (hp : p pos = false) : scanBackWhile p fuel pos = pos := by
  cases fuel with
  | zero => rfl
  | succ fuel => simp [scanBackWhile, hp]

theorem findCharForwardAux_eq (l : List Char) (t : Char) (count : Nat) :
    ∀ (fuel i found : Nat), found < count →
      findCharForwardAux l t count fuel i found =
        optInt ((occsFromAux l t fuel i).get? (count - found - 1)) := by
  intro fuel
  induction fuel with
  | zero => intro i found _; simp [findCharForwardAux, occsFromAux, optInt]
  | succ fuel ih =>
    intro i found hfc
    simp only [findCharForwardAux, occsFromAux]
    by_cases hm : l.get? i = some t
    · rw [if_pos hm, if_pos hm]
      by_cases hc : found + 1 = count
      · rw [if_pos hc]
        have : count - found - 1 = 0 := by omega
        simp [this, optInt]
      · rw [if_neg hc]
        rw [ih (i + 1) (found + 1) (by omega)]
        have : count - found - 1 = (count - (found + 1) - 1) + 1 := by omega
        simp [this]
    · rw [if_neg hm, if_neg hm]
      exact ih (i + 1) found hfc

theorem findCharForward_eq (l : List Char) (s : Nat) (t : Char) (n : Nat) (hn : 1 ≤ n) :
    findCharForward l s t n = optInt ((occsFrom l t (s + 1)).get? (n - 1)) := by
  unfold findCharForward occsFrom
  rw [findCharForwardAux_eq l t n _ _ 0 (by omega)]
  norm_num

theorem mem_occsFromAux (l : List Char) (t : Char) :
    ∀ (fuel i j : Nat),
      j ∈ occsFromAux l t fuel i ↔ (i ≤ j ∧ j < i + fuel ∧ l.get? j = some t) := by
  intro fuel
  induction fuel with
  | zero => intro i j; simp [occsFromAux]; omega
  | succ fuel ih =>
    intro i j
    simp only [occsFromAux]
    by_cases hm : l.get? i = some t
    · rw [if_pos hm]
      simp only [List.mem_cons, ih (i + 1) j]
      constructor
      · rintro (rfl | ⟨h1, h2, h3⟩)
        · exact ⟨le_refl j, by omega, hm⟩
        · exact ⟨by omega, by omega, h3⟩
      · rintro ⟨h1, h2, h3⟩
        rcases Nat.eq_or_lt_of_le h1 with h | h
        · exact Or.inl h.symm
        · exact Or.inr ⟨h, by omega, h3⟩
    · rw [if_neg hm]
      rw [ih (i + 1) j]
      constructor
      · rintro ⟨h1, h2, h3⟩; exact ⟨by omega, by omega, h3⟩
      · rintro ⟨h1, h2, h3⟩
        refine ⟨?_, by omega, h3⟩
        rcases Nat.eq_or_lt_of_le h1 with h | h
        · subst h; exact absurd h3 hm
        · omega

theorem mem_occsFrom (l : List Char) (t : Char) (i j : Nat) :
    j ∈ occsFrom l t i ↔ (i ≤ j ∧ l.get? j = some t) := by
  unfold occsFrom
  rw [mem_occsFromAux]
  constructor
  · rintro ⟨h1, _, h3⟩; exact ⟨h1, h3⟩
  · rintro ⟨h1, h3⟩
    have hj : j < l.length := by
      by_contra hj
      rw [List.get?_eq_none.mpr (by omega)] at h3
      exact absurd h3 (by simp)
    exact ⟨h1, by omega, h3⟩

theorem occsFromAux_pairwise (l : List Char) (t : Char) :
    ∀ (fuel i : Nat), List.Pairwise (· < ·) (occsFromAux l t fuel i) := by
  intro fuel
  induction fuel with
  | zero => intro i; simp [occsFromAux]
  | succ fuel ih =>
    intro i
    simp only [occsFromAux]
    split
    · refine List.pairwise_cons.mpr ⟨?_, ih (i + 1)⟩
      intro j hj
      have := (mem_occsFromAux l t fuel (i + 1) j).mp hj
      omega
    · exact ih (i + 1)

theorem occsFromAux_length (l : List Char) (t : Char) :
    ∀ (fuel i : Nat), (occsFromAux l t fuel i).length ≤ fuel := by
  intro fuel
  induction fuel with
  | zero => intro i; simp [occsFromAux]
  | succ fuel ih =>
    intro i
    simp only [occsFromAux]
    split
    · simpa using Nat.succ_le_succ (ih (i + 1))
    · exact le_trans (ih (i + 1)) (by omega)

theorem occsFrom_length (l : List Char) (t : Char) (i : Nat) :
    (occsFrom l t i).length ≤ l.length - i :=
  occsFromAux_length l t _ i

theorem findCharBackwardAux_eq (l : List Char) (t : Char) (count : Nat) :
    ∀ (m found : Nat), found < count →
      findCharBackwardAux l t count m found =
        optInt ((occsBelow l t m).get? (count - found - 1)) := by
  intro m
  induction m with
  | zero => intro found _; simp [findCharBackwardAux, occsBelow, optInt]
  | succ m ih =>
    intro found hfc
    simp only [findCharBackwardAux, occsBelow]
    by_cases hm : l.get? m = some t
    · rw [if_pos hm, if_pos hm]
      by_cases hc : found + 1 = count
      · rw [if_pos hc]
        have : count - found - 1 = 0 := by omega
        simp [this, optInt]
      · rw [if_neg hc]
        rw [ih (found + 1) (by omega)]
        have : count - found - 1 = (count - (found + 1) - 1) + 1 := by omega
        simp [this]
    · rw [if_neg hm, if_neg hm]
      exact ih found hfc

theorem findCharBackward_eq (l : List Char) (s : Nat) (t : Char) (n : Nat) (hn : 1 ≤ n) :
    findCharBackward l s t n = optInt ((occsBelow l t s).get? (n - 1)) := by
  unfold findCharBackward
  rw [findCharBackwardAux_eq l t n s 0 (by omega)]
  norm_num

theorem mem_occsBelow (l : List Char) (t : Char) :
    ∀ (m j : Nat), j ∈ occsBelow l t m ↔ (j < m ∧ l.get? j = some t) := by
  intro m
  induction m with
  | zero => intro j; simp [occsBelow]
  | succ m ih =>
    intro j
    simp only [occsBelow]
    by_cases hm : l.get? m = some t
    · rw [if_pos hm]
      simp only [List.mem_cons, ih j]
      constructor
      · rintro (rfl | ⟨h1, h2⟩)
        · exact ⟨by omega, hm⟩
        · exact ⟨by omega, h2⟩
      · rintro ⟨h1, h2⟩
        rcases Nat.lt_succ_iff_lt_or_eq.mp h1 with h | h
        · exact Or.inr ⟨h, h2⟩
        · exact Or.inl h
    · rw [if_neg hm, ih j]
      constructor
      · rintro ⟨h1, h2⟩; exact ⟨by omega, h2⟩
      · rintro ⟨h1, h2⟩
        refine ⟨?_, h2⟩
        rcases Nat.lt_succ_iff_lt_or_eq.mp h1 with h | h
        · exact h
        · subst h; exact absurd h2 hm

theorem occsBelow_pairwise (l : List Char) (t : Char) :
    ∀ m : Nat, List.Pairwise (· > ·) (occsBelow l t m) := by
  intro m
  induction m with
  | zero => simp [occsBelow]
  | succ m ih =>
    simp only [occsBelow]
    split
    · refine List.pairwise_cons.mpr ⟨?_, ih⟩
      intro j hj
      have := (mem_occsBelow l t m j).mp hj
      omega
    · exact ih

theorem occsBelow_length (l : List Char) (t : Char) :
    ∀ m : Nat, (occsBelow l t m).length ≤ m := by
  intro m
  induction m with
  | zero => simp [occsBelow]
  | succ m ih =>
    simp only [occsBelow]
    split
    · simpa using Nat.succ_le_succ ih
    · exact le_trans ih (by omega)

theorem optInt_eq_neg_one_iff (o : Option Nat) : optInt o = -1 ↔ o = none := by
  cases o <;> simp [optInt]

theorem wordForward_ge (l : List Char) (c : Nat) : c ≤ wordForward l c := by
  unfold wordForward wsSkip
  refine le_trans ?_ (scanWhile_ge _ _ _)
  split
  · exact scanWhile_ge _ _ _
  · split
    · exact scanWhile_ge _ _ _
    · exact le_refl c

theorem wordCond_lt (l : List Char) : ∀ i, wordCond l i = true → i < l.length := by
  intro i h
  simp [wordCond] at h
  exact h.1

theorem punctCond_lt (l : List Char) : ∀ i, punctCond l i = true → i < l.length := by
  intro i h
  simp [punctCond] at h
  exact h.1.1

theorem wsCond_lt (l : List Char) : ∀ i, wsCond l i = true → i < l.length := by
  intro i h
  simp [wsCond] at h
  exact h.1

theorem wordForward_le (l : List Char) (c : Nat) (hc : c ≤ l.length) :
    wordForward l c ≤ l.length := by
  unfold wordForward wsSkip
  refine scanWhile_le _ _ (wsCond_lt l) _ _ ?_
  split
  · exact scanWhile_le _ _ (wordCond_lt l) _ _ hc
  · split
    · exact scanWhile_le _ _ (punctCond_lt l) _ _ hc
    · exact hc

theorem wordForward_id_of_ge (l : List Char) (c : Nat) (hc : l.length ≤ c) :
    wordForward l c = c := by
  unfold wordForward wsSkip
  have hd : ¬ c < l.length := by omega
  have h1 : wordCond l c = false := by simp [wordCond, hd]
  rw [if_neg (by simp [h1]), if_neg (by simp [hd])]
  exact scanWhile_nomove _ _ _ (by simp [wsCond, hd])

theorem wordForward_progress (l : List Char) (c : Nat) (hc : c < l.length) :
    c + 1 ≤ wordForward l c := by
  unfold wordForward wsSkip
  by_cases hw : isWordCharAt l c = true
  · rw [if_pos (by simp [wordCond, hc, hw])]
    exact le_trans (scanWhile_progress _ _ _ (by simp [wordCond, hc, hw]) (by omega))
      (scanWhile_ge _ _ _)
  · by_cases hs : isWhitespaceAt l c = true
    · rw [if_neg (by simp [wordCond, hw]), if_neg (by simp [hs])]
      exact scanWhile_progress _ _ _ (by simp [wsCond, hc, hs]) (by omega)
    · rw [if_neg (by simp [wordCond, hw]), if_pos (by simp [hc, hs])]
      exact le_trans (scanWhile_progress _ _ _ (by simp [punctCond, hc, hw, hs]) (by omega))
        (scanWhile_ge _ _ _)

theorem wordEnd_ge (l : List Char) (c : Nat) : c + 1 ≤ wordEnd l c := by
  unfold wordEnd wsSkip
  have h1 := scanWhile_ge (wsCond l) (l.length + 1) (c + 1)
  split
  · exact le_trans h1 (scanWhile_ge _ _ _)
  · exact le_trans h1 (scanWhile_ge _ _ _)

theorem wordEndWordCond_lt (l : List Char) : ∀ i, wordEndWordCond l i = true → i < l.length := by
  intro i h
  simp [wordEndWordCond] at h
  omega

theorem wordEndPunctCond_lt (l : List Char) :
    ∀ i, wordEndPunctCond l i = true → i < l.length := by
  intro i h
  simp [wordEndPunctCond] at h
  omega

theorem wordEnd_le (l : List Char) (c : Nat) (hc : c < l.length) :
    wordEnd l c ≤ l.length := by
  unfold wordEnd wsSkip
  have h1 : scanWhile (wsCond l) (l.length + 1) (c + 1) ≤ l.length :=
    scanWhile_le _ _ (wsCond_lt l) _ _ (by omega)
  split
  · exact scanWhile_le _ _ (wordEndWordCond_lt l) _ _ h1
  · exact scanWhile_le _ _ (wordEndPunctCond_lt l) _ _ h1

theorem wordEnd_id_of_ge (l : List Char) (c : Nat) (hc : l.length ≤ c) :
    wordEnd l c = c + 1 := by
  unfold wordEnd wsSkip
  have hd : ¬ c + 1 < l.length + 1 := by omega
  have h1 : scanWhile (wsCond l) (l.length + 1) (c + 1) = c + 1 :=
    scanWhile_nomove _ _ _ (by simp [wsCond]; omega)
  rw [h1]
  split
  · exact scanWhile_nomove _ _ _ (by simp [wordEndWordCond]; omega)
  · exact scanWhile_nomove _ _ _ (by simp [wordEndPunctCond]; omega)

/-- C1: for every anchor, cursor, buffer and selection kind, `getVisualSelection`
returns a pair `(start, end)` with `start ≤ end` in (line, char) lexicographic
order; in particular anchor `(2,5)`, cursor `(0,1)` on a 3-line buffer (char
kind) normalizes to start `(0,1)`, end `(2,5)`. -/
theorem getVisualSelection_ordered :
    (∀ (mode : VisualKind) (a c : Nat × Nat) (rep : List (List Char)),
      posLE (getVisualSelection mode a c rep).1 (getVisualSelection mode a c rep).2) ∧
    getVisualSelection VisualKind.vchar (2, 5) (0, 1)
      ["aaa".toList, "bbb".toList, "ccccc".toList] = ((0, 1), (2, 5)) := by
  constructor
  · intro mode a c rep
    cases mode with
    | vline =>
      simp only [getVisualSelection]
      unfold posLE
      split
      · next h => simp; omega
      · next h => simp; omega
    | vchar =>
      simp only [getVisualSelection]
      unfold posLE
      split
      · next h => simp; omega
      · next h =>
        simp only [not_or, not_and, not_le] at h
        simp
        omega
  · decide

/-- C7: in visual line mode, the derived range starts at column 0 of the
lower-indexed selected line and ends at column 0 of the line after the
higher-indexed selected line, or at the end of the last buffer line when no
such line exists. -/
theorem getVisualSelection_line_range (a c : Nat × Nat) (rep : List (List Char))
    (ha : a.1 < rep.length) (hc : c.1 < rep.length) :
    (getVisualSelection VisualKind.vline a c rep).1 = (min a.1 c.1, 0) ∧
    (getVisualSelection VisualKind.vline a c rep).2 =
      (if max a.1 c.1 + 1 < rep.length then (max a.1 c.1 + 1, 0)
       else (rep.length - 1, (getLineText rep (rep.length - 1)).length)) := by
  constructor
  · simp [getVisualSelection]
  · simp only [getVisualSelection]
    split
    · rfl
    · next h =>
      have hm : max a.1 c.1 = rep.length - 1 := by omega
      rw [hm]

/-- Witness for C7 at a concrete anchor, cursor and 2-line buffer. -/
theorem getVisualSelection_line_range_witness :
    (0 : Nat) < 2 ∧ (1 : Nat) < 2 ∧
    ((getVisualSelection VisualKind.vline (0, 3) (1, 0)
        ["ab".toList, "cdef".toList]).1 = (min 0 1, 0) ∧
      (getVisualSelection VisualKind.vline (0, 3) (1, 0) ["ab".toList, "cdef".toList]).2 =
        (if max (0 : Nat) 1 + 1 < 2 then (max (0 : Nat) 1 + 1, 0)
         else (2 - 1, (getLineText ["ab".toList, "cdef".toList] (2 - 1)).length))) :=
  ⟨by decide, by decide,
    getVisualSelection_line_range (0, 3) (1, 0) ["ab".toList, "cdef".toList]
      (by decide) (by decide)⟩

/-- C10: `clampChar` always lands in `[0, max 0 (length - 1)]`: it is 0 on an
empty line and never equals the line length on a non-empty line, so cursor
placements computed through it rest on an existing character. -/
theorem clampChar_bounds (c : Int) (l : List Char) :
    0 ≤ clampChar c l ∧ clampChar c l ≤ max 0 ((l.length : Int) - 1) ∧
    (l.length = 0 → clampChar c l = 0) ∧
    (l.length ≠ 0 → clampChar c l ≠ (l.length : Int)) := by
  unfold clampChar
  omega

/-- Witness for C10 at a concrete offset and line. -/
theorem clampChar_bounds_witness :
    0 ≤ clampChar 7 ("abc".toList) ∧
    clampChar 7 ("abc".toList) ≤ max 0 ((("abc".toList).length : Int) - 1) ∧
    (("abc".toList).length = 0 → clampChar 7 ("abc".toList) = 0) ∧
    (("abc".toList).length ≠ 0 → clampChar 7 ("abc".toList) ≠ (("abc".toList).length : Int)) :=
  clampChar_bounds 7 ("abc".toList)

/-- C4: an empty characterwise range is a no-op treated as success:
`charMotionRange` returns `none` precisely when `end ≤ start`, and in both
operator-pending paths an empty or absent range leaves the whole editing state
(buffer, register, mode, cursor) unchanged. -/
theorem empty_range_noop :
    (∀ (m : Char) (c p : Nat),
      charMotionRange m c p = none ↔
        (charMotionEndpoints m c p).2 ≤ (charMotionEndpoints m c p).1) ∧
    (∀ (op key : Char) (count : Nat) (st : EdState) (r : Nat × Nat),
      motionRange key st.cursor.2 (getLineText st.buffer st.cursor.1) count = some r →
      r.2 ≤ r.1 → opPendingMotionStep op key count st = st) ∧
    (∀ (op dir tgt : Char) (count : Nat) (st : EdState),
      charSearchPos dir (getLineText st.buffer st.cursor.1) st.cursor.2 tgt count ≠ -1 →
      charMotionRange dir st.cursor.2
        (charSearchPos dir (getLineText st.buffer st.cursor.1) st.cursor.2 tgt
          count).toNat = none →
      opPendingCharSearchStep op dir tgt count st = st) := by
  refine ⟨?_, ?_, ?_⟩
  · intro m c p
    unfold charMotionRange
    split
    · next h =>
      constructor
      · intro hc
        simp at hc
      · intro hc
        exact absurd hc (by omega)
    · next h =>
      constructor
      · intro _
        omega
      · intro _
        rfl
  · intro op key count st r hr hle
    unfold opPendingMotionStep
    rw [hr]
    exact if_neg (by omega)
  · intro op dir tgt count st hpos hnone
    unfold opPendingCharSearchStep
    rw [if_neg hpos, hnone]

/-- Witness for C4: `db` at column 0 resolves to the empty range `(0,0)` and
leaves a concrete state untouched. -/
theorem empty_range_noop_witness :
    motionRange 'b' 0 (getLineText ["ab".toList] 0) 1 = some (0, 0) ∧
    opPendingMotionStep 'd' 'b' 1
      ⟨["ab".toList], none, false, (0, 0)⟩ = ⟨["ab".toList], none, false, (0, 0)⟩ :=
  ⟨by decide,
    empty_range_noop.2.1 'd' 'b' 1 ⟨["ab".toList], none, false, (0, 0)⟩ (0, 0)
      (by decide) (by decide)⟩

theorem indexOfAux_found (l : List Char) (t : Char) :
    ∀ (fuel i f : Nat), l.get? f = some t → i ≤ f → f < i + fuel →
      (∀ j, i ≤ j → j < f → l.get? j ≠ some t) → indexOfAux l t fuel i = (f : Int) := by
  intro fuel
  induction fuel with
  | zero => intro i f _ h2 h3 _; omega
  | succ fuel ih =>
    intro i f h1 h2 h3 h4
    simp only [indexOfAux]
    rcases Nat.eq_or_lt_of_le h2 with h | h
    · rw [h, if_pos (h ▸ h1)]
    · rw [if_neg (h4 i (le_refl i) h)]
      exact_mod_cast ih (i + 1) f h1 (by omega) (by omega) (fun j hj1 hj2 => h4 j (by omega) hj2)

theorem indexOfAux_none (l : List Char) (t : Char) :
    ∀ (fuel i : Nat), (∀ j, i ≤ j → j < i + fuel → l.get? j ≠ some t) →
      indexOfAux l t fuel i = -1 := by
  intro fuel
  induction fuel with
  | zero => intro i _; rfl
  | succ fuel ih =>
    intro i h
    simp only [indexOfAux]
    rw [if_neg (h i (le_refl i) (by omega))]
    exact ih (i + 1) (fun j hj1 hj2 => h j (by omega) (by omega))

theorem indexOfFrom_found (l : List Char) (t : Char) (i f : Nat)
    (h1 : l.get? f = some t) (h2 : i ≤ f)
    (h4 : ∀ j, i ≤ j → j < f → l.get? j ≠ some t) :
    indexOfFrom l t i = (f : Int) := by
  have hf : f < l.length := by
    by_contra hf
    rw [List.get?_eq_none.mpr (by omega)] at h1
    exact absurd h1 (by simp)
  exact indexOfAux_found l t _ i f h1 h2 (by omega) h4

/-- C5: when a line's first two occurrences of the quote character are at `f`
and `s`, the inner-quote text object is `[f+1, s)` exactly when the cursor lies
in `[f, s]`, and fails otherwise; in particular on `say "hello" ok` any cursor
in `[4,10]` yields `[5,10)` and cursor 12 yields no match. -/
theorem innerQuoteRange_spec (l : List Char) (q : Char) (f s : Nat)
    (hf : l.get? f = some q) (hs : l.get? s = some q) (hfs : f < s)
    (hfirst : ∀ j, j < f → l.get? j ≠ some q)
    (hsecond : ∀ j, j < s → f < j → l.get? j ≠ some q) :
    (∀ char, innerQuoteRange l char q =
      if f ≤ char ∧ char ≤ s then some (f + 1, s) else none) ∧
    (∀ char, char ≤ 10 → 4 ≤ char →
      innerQuoteRange ("say \"hello\" ok".toList) char '"' = some (5, 10)) ∧
    innerQuoteRange ("say \"hello\" ok".toList) 12 '"' = none := by
  have h1 : indexOfFrom l q 0 = (f : Int) :=
    indexOfFrom_found l q 0 f hf (by omega) (fun j _ hj2 => hfirst j hj2)
  have h2 : indexOfFrom l q (f + 1) = (s : Int) :=
    indexOfFrom_found l q (f + 1) s hs (by omega)
      (fun j hj1 hj2 => hsecond j hj2 (by omega))
  refine ⟨?_, by decide, by decide⟩
  intro char
  unfold innerQuoteRange
  rw [h1]
  simp only [Int.toNat_ofNat]
  rw [h2]
  simp only [Int.toNat_ofNat]
  rw [if_neg (by omega), if_neg (by omega)]
  by_cases hc : f ≤ char ∧ char ≤ s
  · rw [if_neg (by omega), if_pos hc]
  · rw [if_pos (by omega), if_neg hc]

/-- Witness for C5 on the spec's own example line. -/
theorem innerQuoteRange_spec_witness :
    innerQuoteRange ("say \"hello\" ok".toList) 7 '"' =
      (if 4 ≤ 7 ∧ 7 ≤ 10 then some (4 + 1, 10) else none) :=
  (innerQuoteRange_spec ("say \"hello\" ok".toList) '"' 4 10 (by decide) (by decide)
    (by decide) (by decide) (by decide)).1 7

/-- C2: `findCharForward`/`findCharBackward` return the offset of the n-th
occurrence of the target strictly after/before the start offset — the n-th
element of the (sorted, complete) occurrence list — and return the sentinel
`-1` exactly when fewer than n such occurrences exist. -/
theorem findChar_nth_occurrence (l : List Char) (s : Nat) (t : Char) (n : Nat)
    (hn : 1 ≤ n) :
    findCharForward l s t n = optInt ((occsFrom l t (s + 1)).get? (n - 1)) ∧
    (∀ j, j ∈ occsFrom l t (s + 1) ↔ (s < j ∧ l.get? j = some t)) ∧
    List.Pairwise (· < ·) (occsFrom l t (s + 1)) ∧
    (findCharForward l s t n = -1 ↔ (occsFrom l t (s + 1)).length < n) ∧
    findCharBackward l s t n = optInt ((occsBelow l t s).get? (n - 1)) ∧
    (∀ j, j ∈ occsBelow l t s ↔ (j < s ∧ l.get? j = some t)) ∧
    List.Pairwise (· > ·) (occsBelow l t s) ∧
    (findCharBackward l s t n = -1 ↔ (occsBelow l t s).length < n) := by
  refine ⟨findCharForward_eq l s t n hn, ?_, occsFromAux_pairwise l t _ _, ?_,
    findCharBackward_eq l s t n hn, mem_occsBelow l t s, occsBelow_pairwise l t s, ?_⟩
  · intro j
    rw [mem_occsFrom]
    constructor
    · rintro ⟨h1, h2⟩
      exact ⟨by omega, h2⟩
    · rintro ⟨h1, h2⟩
      exact ⟨by omega, h2⟩
  · rw [findCharForward_eq l s t n hn, optInt_eq_neg_one_iff, List.get?_eq_none]
    omega
  · rw [findCharBackward_eq l s t n hn, optInt_eq_neg_one_iff, List.get?_eq_none]
    omega

/-- Witness for C2 on a concrete line: the 2nd `b` strictly after offset 0 in
`abab` is at offset 3. -/
theorem findChar_nth_occurrence_witness :
    findCharForward ("abab".toList) 0 'b' 2 =
      optInt ((occsFrom ("abab".toList) 'b' (0 + 1)).get? (2 - 1)) ∧
    findCharForward ("abab".toList) 0 'b' 2 = 3 :=
  ⟨(findChar_nth_occurrence ("abab".toList) 0 'b' 2 (by decide)).1, by decide⟩

theorem matches_map (o : List Nat) :
    ∀ K, o.length ≤ K →
      ((List.range K).map (fun i => optInt (o.get? i))).filter (fun r => decide (r ≠ -1)) =
        o.map Int.ofNat := by
  induction o with
  | nil =>
    intro K _
    refine List.filter_eq_nil_iff.mpr ?_
    intro a ha
    rcases List.mem_map.mp ha with ⟨i, _, rfl⟩
    simp [optInt]
  | cons a o ih =>
    intro K hK
    cases K with
    | zero => simp at hK
    | succ K =>
      rw [List.range_succ_eq_map]
      simp only [List.map_cons, List.map_map, List.get?_cons_zero, Function.comp_def,
        List.get?_cons_succ]
      rw [List.filter_cons_of_pos (by simp [optInt])]
      rw [ih K (by simpa using hK)]
      simp [optInt]

theorem occsFrom_unfold (l : List Char) (t : Char) (i : Nat) (hi : i < l.length) :
    occsFrom l t i =
      if l.get? i = some t then i :: occsFrom l t (i + 1) else occsFrom l t (i + 1) := by
  unfold occsFrom
  have h : l.length - i = (l.length - (i + 1)) + 1 := by omega
  rw [h]
  simp only [occsFromAux]

theorem occsFrom_eq_nil (l : List Char) (t : Char) (i : Nat) (hi : l.length ≤ i) :
    occsFrom l t i = [] := by
  unfold occsFrom
  have h : l.length - i = 0 := by omega
  rw [h]
  rfl

theorem occsFrom_zero_eq (l : List Char) (t : Char) :
    ∀ m, m ≤ l.length → occsFrom l t 0 = (occsBelow l t m).reverse ++ occsFrom l t m := by
  intro m
  induction m with
  | zero => intro _; simp [occsBelow]
  | succ m ih =>
    intro hm
    have hunf : occsFrom l t m =
        if l.get? m = some t then m :: occsFrom l t (m + 1) else occsFrom l t (m + 1) :=
      occsFrom_unfold l t m (by omega)
    rw [ih (by omega), hunf]
    simp only [occsBelow]
    split
    · simp
    · rfl

theorem occsFrom_filter_ge (l : List Char) (t : Char) :
    ∀ d i j, i ≤ j → j - i ≤ d →
      (occsFrom l t i).filter (fun k => decide (j ≤ k)) = occsFrom l t j := by
  intro d
  induction d with
  | zero =>
    intro i j h1 h2
    have h : i = j := by omega
    subst h
    refine List.filter_eq_self.mpr ?_
    intro a ha
    have hm := (mem_occsFrom l t i a).mp ha
    simp [hm.1]
  | succ d ih =>
    intro i j h1 h2
    rcases Nat.eq_or_lt_of_le h1 with h | h
    · subst h
      exact ih i i (le_refl i) (by omega)
    · by_cases hi : i < l.length
      · rw [occsFrom_unfold l t i hi]
        split
        · rw [List.filter_cons_of_neg (by simp; omega)]
          exact ih (i + 1) j (by omega) (by omega)
        · exact ih (i + 1) j (by omega) (by omega)
      · rw [occsFrom_eq_nil l t i (by omega), occsFrom_eq_nil l t j (by omega)]
        rfl

theorem fwdMatches_eq (l : List Char) (p : Nat) (t : Char) :
    fwdMatches l p t = (occsFrom l t (p + 1)).map Int.ofNat := by
  unfold fwdMatches
  have h1 : (List.range' 1 l.length).map (fun n => findCharForward l p t n) =
      (List.range' 1 l.length).map (fun n => optInt ((occsFrom l t (p + 1)).get? (n - 1))) := by
    refine List.map_congr_left ?_
    intro n hn
    have hmem := List.mem_range'.mp hn
    exact findCharForward_eq l p t n (by omega)
  rw [h1, List.range'_eq_map_range]
  simp only [List.map_map, Function.comp_def, Nat.add_sub_cancel_left]
  exact matches_map _ _ (le_trans (occsFrom_length l t (p + 1)) (by omega))

theorem bwdMatches_eq (l : List Char) (q : Nat) (t : Char) (hq : q ≤ l.length) :
    bwdMatches l q t = (occsBelow l t q).map Int.ofNat := by
  unfold bwdMatches
  have h1 : (List.range' 1 l.length).map (fun n => findCharBackward l q t n) =
      (List.range' 1 l.length).map (fun n => optInt ((occsBelow l t q).get? (n - 1))) := by
    refine List.map_congr_left ?_
    intro n hn
    have hmem := List.mem_range'.mp hn
    exact findCharBackward_eq l q t n (by omega)
  rw [h1, List.range'_eq_map_range]
  simp only [List.map_map, Function.comp_def, Nat.add_sub_cancel_left]
  exact matches_map _ _ (le_trans (occsBelow_length l t q) hq)

/-- C9 counterexample: on line `aa` with start offset 0 and target `a`, the
forward match set is `[1]` while the reversed backward-from-end-of-line match
set is `[0, 1]`; the claimed equality fails. -/
theorem fwdMatches_ne_reverse_bwdMatches :
    ¬ (fwdMatches ("aa".toList) 0 'a' =
        (bwdMatches ("aa".toList) ("aa".toList).length 'a').reverse) := by
  decide

/-- C9 amended: the forward match set from `p` equals the reverse of the
backward match set from end-of-line restricted to the offsets strictly greater
than `p` (occurrences at or before `p` are visible backward but not forward). -/
theorem fwdMatches_eq_reverse_bwdMatches_after (l : List Char) (p : Nat) (t : Char) :
    fwdMatches l p t =
      ((bwdMatches l l.length t).filter (fun k => decide ((p : Int) < k))).reverse := by
  rw [fwdMatches_eq, bwdMatches_eq l l.length t (le_refl _)]
  rw [List.filter_map]
  rw [← List.map_reverse]
  congr 1
  have hpred : ((fun k => decide ((p : Int) < k)) ∘ Int.ofNat) =
      (fun k : Nat => decide (p + 1 ≤ k)) := by
    funext k
    simp only [Function.comp_apply]
    rw [decide_eq_decide]
    rw [Int.ofNat_eq_natCast]
    omega
  rw [hpred]
  rw [← List.filter_reverse]
  have hrev : (occsBelow l t l.length).reverse = occsFrom l t 0 := by
    have := occsFrom_zero_eq l t l.length (le_refl _)
    rw [occsFrom_eq_nil l t l.length (le_refl _)] at this
    simpa using this.symm
  rw [hrev]
  exact (occsFrom_filter_ge l t (p + 1) 0 (p + 1) (by omega) (by omega)).symm

theorem deleteLines_last (buf : List (List Char)) (top bottom : Nat)
    (hlen : buf ≠ []) (htb : top ≤ bottom) (hb : bottom = buf.length - 1)
    (ht : 0 < top) : deleteLines buf top bottom = (buf.take top, top - 1) := by
  have hl : 0 < buf.length := List.length_pos.mpr hlen
  have ht1 : top - 1 < buf.length := by omega
  unfold deleteLines
  rw [if_pos ⟨hb, ht⟩]
  unfold replaceRangeBuf
  simp only [spliceLines, List.take_length, List.drop_length, List.append_nil]
  have hd : bottom + 1 = buf.length := by omega
  rw [hd, List.drop_length, List.append_nil]
  unfold getLineText
  rw [List.getD_eq_get?]
  rcases hg : buf.get? (top - 1) with _ | x
  · exact absurd (List.get?_eq_none.mp hg) (by omega)
  · have hg2 : buf[top - 1]? = some x := by
      rw [← List.get?_eq_getElem?]
      exact hg
    have hts := List.take_succ (l := buf) (n := top - 1)
    rw [hg2] at hts
    have ht2 : top - 1 + 1 = top := by omega
    rw [ht2] at hts
    simp only [Option.toList_some] at hts
    simp only [Option.getD_some]
    rw [← hts]

theorem deleteLines_all (buf : List (List Char)) (bottom : Nat)
    (hlen : buf ≠ []) (hb : bottom = buf.length - 1) :
    deleteLines buf 0 bottom = ([[]], 0) := by
  have hl : 0 < buf.length := List.length_pos.mpr hlen
  unfold deleteLines
  rw [if_neg (by omega), if_neg (by omega)]
  unfold replaceRangeBuf
  simp only [spliceLines, List.take_zero, List.drop_length, List.append_nil,
    List.nil_append]
  have hd : bottom + 1 = buf.length := by omega
  rw [hd, List.drop_length, List.append_nil]

/-- C6: a linewise delete whose range reaches the last buffer line removes from
the end of the previous line (leaving exactly the lines above the range, no
dangling empty final line); deleting every line leaves the single empty line;
the cursor lands at the range start clamped to the resulting line; and `dd` on
line 2 of `["a","b","c"]` yields `["a","b"]` with the cursor on line 1. -/
theorem linewise_delete_at_end (st : EdState) (top bottom char : Nat)
    (hlen : st.buffer ≠ []) (htb : top ≤ bottom)
    (hb : bottom = st.buffer.length - 1) :
    (0 < top →
      applyLineOperator 'd' top bottom char st =
        { buffer := st.buffer.take top,
          register := some (Register.linewise (linesBetween st.buffer top bottom)),
          insertMode := st.insertMode,
          cursor := (top - 1, clampCharN char (getLineText (st.buffer.take top) (top - 1))) }) ∧
    (top = 0 →
      applyLineOperator 'd' top bottom char st =
        { buffer := [[]],
          register := some (Register.linewise (linesBetween st.buffer 0 bottom)),
          insertMode := st.insertMode,
          cursor := (0, 0) }) ∧
    opDoubledStep 'd' 1 ⟨["a".toList, "b".toList, "c".toList], none, false, (2, 0)⟩ =
      ⟨["a".toList, "b".toList], some (Register.linewise ["c".toList]), false, (1, 0)⟩ := by
  refine ⟨?_, ?_, by decide⟩
  · intro ht
    simp only [applyLineOperator]
    rw [if_neg (by decide), if_neg (by decide)]
    rw [deleteLines_last st.buffer top bottom hlen htb hb ht]
  · intro ht
    subst ht
    simp only [applyLineOperator]
    rw [if_neg (by decide), if_neg (by decide)]
    rw [deleteLines_all st.buffer bottom hlen hb]
    have hc : clampCharN char (getLineText [[]] 0) = 0 := by
      simp [clampCharN, getLineText]
    rw [hc]

/-- Witness for C6: `dd` on the last line of a concrete 3-line buffer. -/
theorem linewise_delete_at_end_witness :
    applyLineOperator 'd' 2 2 0 ⟨["a".toList, "b".toList, "c".toList], none, false, (2, 0)⟩ =
      { buffer := (["a".toList, "b".toList, "c".toList] : List (List Char)).take 2,
        register := some (Register.linewise
          (linesBetween ["a".toList, "b".toList, "c".toList] 2 2)),
        insertMode := false,
        cursor := (2 - 1, clampCharN 0
          (getLineText ((["a".toList, "b".toList, "c".toList] : List (List Char)).take 2)
            (2 - 1))) } :=
  (linewise_delete_at_end ⟨["a".toList, "b".toList, "c".toList], none, false, (2, 0)⟩
    2 2 0 (by decide) (by decide) (by decide)).1 (by decide)

theorem wordForward_swap (l : List Char) (x : Nat) :
    clampCharN (wordForward l (clampCharN x l)) l = clampCharN (wordForward l x) l := by
  unfold clampCharN
  rcases Nat.lt_or_ge x l.length with hx | hx
  · have h : min x (l.length - 1) = x := by omega
    rw [h]
  · rcases Nat.eq_zero_or_pos l.length with h0 | h0
    · simp [h0]
    · have h1 : min x (l.length - 1) = l.length - 1 := by omega
      rw [h1]
      have h2 : wordForward l (l.length - 1) = l.length := by
        have hge := wordForward_progress l (l.length - 1) (by omega)
        have hle := wordForward_le l (l.length - 1) (by omega)
        omega
      rw [h2, wordForward_id_of_ge l x hx]
      omega

theorem wordEnd_swap (l : List Char) (x : Nat) :
    clampCharN (wordEnd l (clampCharN x l)) l = clampCharN (wordEnd l x) l := by
  unfold clampCharN
  rcases Nat.lt_or_ge x l.length with hx | hx
  · have h : min x (l.length - 1) = x := by omega
    rw [h]
  · rcases Nat.eq_zero_or_pos l.length with h0 | h0
    · simp [h0]
    · have h1 : min x (l.length - 1) = l.length - 1 := by omega
      rw [h1]
      have h2 : wordEnd l (l.length - 1) = l.length := by
        have hge := wordEnd_ge l (l.length - 1)
        have hle := wordEnd_le l (l.length - 1) (by omega)
        omega
      rw [h2, wordEnd_id_of_ge l x hx]
      omega

theorem navStep_h (rep : List (List Char)) (s : NavState) :
    navStep 'h' rep s = ⟨s.line, s.char - 1, none⟩ := by
  simp [navStep, resolveMotionNav]

theorem navStep_l (rep : List (List Char)) (s : NavState) :
    navStep 'l' rep s = ⟨s.line, clampCharN (s.char + 1) (getLineText rep s.line), none⟩ := by
  simp [navStep, resolveMotionNav]

theorem navStep_j (rep : List (List Char)) (s : NavState) :
    navStep 'j' rep s =
      ⟨clampLineN (s.line + 1) rep,
        clampCharN (s.desiredColumn.getD s.char) (getLineText rep (clampLineN (s.line + 1) rep)),
        some (s.desiredColumn.getD s.char)⟩ := by
  simp [navStep, resolveMotionNav]

theorem navStep_k (rep : List (List Char)) (s : NavState) :
    navStep 'k' rep s =
      ⟨clampLineN (s.line - 1) rep,
        clampCharN (s.desiredColumn.getD s.char) (getLineText rep (clampLineN (s.line - 1) rep)),
        some (s.desiredColumn.getD s.char)⟩ := by
  simp [navStep, resolveMotionNav]

theorem navStep_w (rep : List (List Char)) (s : NavState) :
    navStep 'w' rep s =
      ⟨s.line, clampCharN (wordForward (getLineText rep s.line) s.char)
        (getLineText rep s.line), none⟩ := by
  simp [navStep, resolveMotionNav]

theorem navStep_b (rep : List (List Char)) (s : NavState) :
    navStep 'b' rep s = ⟨s.line, wordBackward (getLineText rep s.line) s.char, none⟩ := by
  simp [navStep, resolveMotionNav]

theorem navStep_e (rep : List (List Char)) (s : NavState) :
    navStep 'e' rep s =
      ⟨s.line, clampCharN (wordEnd (getLineText rep s.line) s.char)
        (getLineText rep s.line), none⟩ := by
  simp [navStep, resolveMotionNav]

theorem iter_h (rep : List (List Char)) :
    ∀ (n : Nat) (s : NavState), 1 ≤ n →
      (navStep 'h' rep)^[n] s = ⟨s.line, s.char - n, none⟩ := by
  intro n
  induction n with
  | zero => intro s h; omega
  | succ n ih =>
    intro s _
    rw [Function.iterate_succ_apply']
    cases Nat.eq_zero_or_pos n with
    | inl h0 =>
      subst h0
      simp only [Function.iterate_zero, id_eq, navStep_h]
    | inr h0 =>
      rw [ih s h0, navStep_h]
      have harith : s.char - n - 1 = s.char - (n + 1) := by omega
      rw [harith]

theorem iter_l (rep : List (List Char)) :
    ∀ (n : Nat) (s : NavState), 1 ≤ n →
      (navStep 'l' rep)^[n] s =
        ⟨s.line, clampCharN (s.char + n) (getLineText rep s.line), none⟩ := by
  intro n
  induction n with
  | zero => intro s h; omega
  | succ n ih =>
    intro s _
    rw [Function.iterate_succ_apply']
    cases Nat.eq_zero_or_pos n with
    | inl h0 =>
      subst h0
      simp only [Function.iterate_zero, id_eq, navStep_l]
    | inr h0 =>
      rw [ih s h0, navStep_l]
      have harith : clampCharN (clampCharN (s.char + n) (getLineText rep s.line) + 1)
          (getLineText rep s.line) = clampCharN (s.char + (n + 1)) (getLineText rep s.line) := by
        unfold clampCharN
        omega
      rw [harith]

theorem iter_j (rep : List (List Char)) :
    ∀ (n : Nat) (s : NavState), 1 ≤ n →
      (navStep 'j' rep)^[n] s =
        ⟨clampLineN (s.line + n) rep,
          clampCharN (s.desiredColumn.getD s.char)
            (getLineText rep (clampLineN (s.line + n) rep)),
          some (s.desiredColumn.getD s.char)⟩ := by
  intro n
  induction n with
  | zero => intro s h; omega
  | succ n ih =>
    intro s _
    rw [Function.iterate_succ_apply']
    cases Nat.eq_zero_or_pos n with
    | inl h0 =>
      subst h0
      simp only [Function.iterate_zero, id_eq, navStep_j]
    | inr h0 =>
      rw [ih s h0, navStep_j]
      simp only [Option.getD_some]
      have hL : clampLineN (clampLineN (s.line + n) rep + 1) rep =
          clampLineN (s.line + (n + 1)) rep := by
        unfold clampLineN
        omega
      rw [hL]

theorem iter_k (rep : List (List Char)) :
    ∀ (n : Nat) (s : NavState), 1 ≤ n → s.line < rep.length →
      (navStep 'k' rep)^[n] s =
        ⟨clampLineN (s.line - n) rep,
          clampCharN (s.desiredColumn.getD s.char)
            (getLineText rep (clampLineN (s.line - n) rep)),
          some (s.desiredColumn.getD s.char)⟩ := by
  intro n
  induction n with
  | zero => intro s h _; omega
  | succ n ih =>
    intro s _ hline
    rw [Function.iterate_succ_apply']
    cases Nat.eq_zero_or_pos n with
    | inl h0 =>
      subst h0
      simp only [Function.iterate_zero, id_eq, navStep_k]
    | inr h0 =>
      rw [ih s h0 hline, navStep_k]
      simp only [Option.getD_some]
      have hL : clampLineN (clampLineN (s.line - n) rep - 1) rep =
          clampLineN (s.line - (n + 1)) rep := by
        unfold clampLineN
        omega
      rw [hL]

theorem iter_w (rep : List (List Char)) :
    ∀ (n : Nat) (s : NavState), 1 ≤ n →
      (navStep 'w' rep)^[n] s =
        ⟨s.line, clampCharN ((fun p => wordForward (getLineText rep s.line) p)^[n] s.char)
          (getLineText rep s.line), none⟩ := by
  intro n
  induction n with
  | zero => intro s h; omega
  | succ n ih =>
    intro s _
    rw [Function.iterate_succ_apply']
    cases Nat.eq_zero_or_pos n with
    | inl h0 =>
      subst h0
      simp only [Function.iterate_zero, id_eq, navStep_w, Nat.zero_add,
        Function.iterate_one]
    | inr h0 =>
      rw [ih s h0, navStep_w, Function.iterate_succ_apply']
      rw [wordForward_swap (getLineText rep s.line)
        ((fun p => wordForward (getLineText rep s.line) p)^[n] s.char)]

theorem iter_b (rep : List (List Char)) :
    ∀ (n : Nat) (s : NavState), 1 ≤ n →
      (navStep 'b' rep)^[n] s =
        ⟨s.line, (fun p => wordBackward (getLineText rep s.line) p)^[n] s.char, none⟩ := by
  intro n
  induction n with
  | zero => intro s h; omega
  | succ n ih =>
    intro s _
    rw [Function.iterate_succ_apply']
    cases Nat.eq_zero_or_pos n with
    | inl h0 =>
      subst h0
      simp only [Function.iterate_zero, id_eq, navStep_b, Nat.zero_add,
        Function.iterate_one]
    | inr h0 =>
      rw [ih s h0, navStep_b, Function.iterate_succ_apply']

theorem iter_e (rep : List (List Char)) :
    ∀ (n : Nat) (s : NavState), 1 ≤ n →
      (navStep 'e' rep)^[n] s =
        ⟨s.line, clampCharN ((fun p => wordEnd (getLineText rep s.line) p)^[n] s.char)
          (getLineText rep s.line), none⟩ := by
  intro n
  induction n with
  | zero => intro s h; omega
  | succ n ih =>
    intro s _
    rw [Function.iterate_succ_apply']
    cases Nat.eq_zero_or_pos n with
    | inl h0 =>
      subst h0
      simp only [Function.iterate_zero, id_eq, navStep_e, Nat.zero_add,
        Function.iterate_one]
    | inr h0 =>
      rw [ih s h0, navStep_e, Function.iterate_succ_apply']
      rw [wordEnd_swap (getLineText rep s.line)
        ((fun p => wordEnd (getLineText rep s.line) p)^[n] s.char)]

/-- C3: for each repeatable motion key (`w e b h l j k`) the multi-count motion
equals n-fold iteration of the count-1 motion (each step carrying its own
boundary clamp), and `2dw` on `one two three four` at offset 0 deletes exactly
`one two `, leaving `three four`. -/
theorem motion_count_iterates (key : Char)
    (hkey : key = 'h' ∨ key = 'l' ∨ key = 'j' ∨ key = 'k' ∨ key = 'w' ∨
      key = 'b' ∨ key = 'e')
    (rep : List (List Char)) (s : NavState) (n : Nat) (hn : 1 ≤ n)
    (hline : s.line < rep.length) :
    resolveMotionNav key rep n s = some ((navStep key rep)^[n] s) ∧
    (opPendingMotionStep 'd' 'w' 2
        ⟨["one two three four".toList], none, false, (0, 0)⟩).buffer =
      ["three four".toList] ∧
    (opPendingMotionStep 'd' 'w' 2
        ⟨["one two three four".toList], none, false, (0, 0)⟩).register =
      some (Register.charwise ("one two ".toList)) := by
  refine ⟨?_, by decide, by decide⟩
  rcases hkey with rfl | rfl | rfl | rfl | rfl | rfl | rfl
  · rw [iter_h rep n s hn]
    simp [resolveMotionNav]
  · rw [iter_l rep n s hn]
    simp [resolveMotionNav]
  · rw [iter_j rep n s hn]
    simp [resolveMotionNav]
  · rw [iter_k rep n s hn hline]
    simp [resolveMotionNav]
  · rw [iter_w rep n s hn]
    simp [resolveMotionNav]
  · rw [iter_b rep n s hn]
    simp [resolveMotionNav]
  · rw [iter_e rep n s hn]
    simp [resolveMotionNav]

/-- Witness for C3: `2w` on a concrete line equals two iterated single `w` steps. -/
theorem motion_count_iterates_witness :
    resolveMotionNav 'w' [("ab cd ef".toList)] 2 ⟨0, 0, none⟩ =
      some ((navStep 'w' [("ab cd ef".toList)])^[2] ⟨0, 0, none⟩) :=
  (motion_count_iterates 'w' (by decide) [("ab cd ef".toList)] ⟨0, 0, none⟩ 2
    (by decide) (by decide)).1

theorem wsCond_ws {l : List Char} {i : Nat} (h : wsCond l i = true) :
    isWhitespaceAt l i = true := by
  simp [wsCond] at h
  exact h.2

theorem wordCond_wc {l : List Char} {i : Nat} (h : wordCond l i = true) :
    isWordCharAt l i = true := by
  simp [wordCond] at h
  exact h.2

theorem punctCond_not_wc {l : List Char} {i : Nat} (h : punctCond l i = true) :
    isWordCharAt l i = false := by
  simp [punctCond] at h
  exact h.1.2

theorem punctCond_not_ws {l : List Char} {i : Nat} (h : punctCond l i = true) :
    isWhitespaceAt l i = false := by
  simp [punctCond] at h
  exact h.2

theorem restart_word_case (l : List Char) (c : Nat) (hc : c < l.length)
    (hwcc : isWordCharAt l c = true)
    (hstart : c = 0 ∨ isWhitespaceAt l (c - 1) = true ∨ isWordCharAt l (c - 1) = false) :
    wordBackward l (wordForward l c) = c := by
  have hwc : wordCond l c = true := by simp [wordCond, hc, hwcc]
  set e := scanWhile (wordCond l) (l.length + 1) c with he
  have he1 : c + 1 ≤ e := scanWhile_progress _ _ _ hwc (by omega)
  have he2 : e ≤ l.length := scanWhile_le _ _ (wordCond_lt l) _ _ (le_of_lt hc)
  have heinv : ∀ i, c ≤ i → i < e → wordCond l i = true := scanWhile_inv _ _ _
  set q := scanWhile (wsCond l) (l.length + 1) e with hq
  have hq1 : e ≤ q := scanWhile_ge _ _ _
  have hq2 : q ≤ l.length := scanWhile_le _ _ (wsCond_lt l) _ _ he2
  have hqinv : ∀ i, e ≤ i → i < q → wsCond l i = true := scanWhile_inv _ _ _
  have hwf : wordForward l c = q := by
    unfold wordForward wsSkip
    rw [if_pos hwc]
  rw [hwf]
  have hwce : isWordCharAt l (e - 1) = true :=
    wordCond_wc (heinv (e - 1) (by omega) (by omega))
  have hwle : e - 1 < l.length := by omega
  have hpos1 : wsSkipBack l (q + 1) ((q : Int) - 1) = (e : Int) - 1 := by
    unfold wsSkipBack
    apply scanBackWhile_exact
    · omega
    · intro i h1 h2
      have hg0 : (0 : Int) ≤ i := by omega
      have hlt : i.toNat < q := by omega
      have hgee : e ≤ i.toNat := by omega
      have hws := wsCond_ws (hqinv i.toNat hgee hlt)
      simp [wsBackCond, hg0, isWhitespaceAtI, hws]
    · have hnws : isWhitespaceAt l (e - 1) = false :=
        isWordCharAt_not_isWhitespaceAt hwce hwle
      have htn : ((e : Int) - 1).toNat = e - 1 := by omega
      simp [wsBackCond, isWhitespaceAtI, htn, hnws]
    · omega
  have htn : ((e : Int) - 1).toNat = e - 1 := by omega
  have hcond : (decide ((0 : Int) ≤ (e : Int) - 1) &&
      isWordCharAtI l ((e : Int) - 1)) = true := by
    simp [isWordCharAtI, htn, hwce]
    omega
  have hpos2 : scanBackWhile (wordBackCond l) (q + 1) ((e : Int) - 1) = (c : Int) := by
    apply scanBackWhile_exact
    · omega
    · intro i h1 h2
      have h0 : (0 : Int) < i := by omega
      have hi1 : c ≤ (i - 1).toNat := by omega
      have hi2 : (i - 1).toNat < e := by omega
      have hwci := wordCond_wc (heinv (i - 1).toNat hi1 hi2)
      have hconv : (i - 1).toNat = i.toNat - 1 := by omega
      rw [hconv] at hwci
      simp [wordBackCond, isWordCharAtI, h0, hwci]
    · by_cases h0 : c = 0
      · subst h0
        simp [wordBackCond]
      · have htc : ((c : Int) - 1).toNat = c - 1 := by omega
        have hwcp : isWordCharAt l (c - 1) = false := by
          rcases hstart with h | h | h
          · exact absurd h h0
          · cases hval : isWordCharAt l (c - 1) with
            | false => rfl
            | true =>
              have := isWordCharAt_not_isWhitespaceAt hval (by omega)
              rw [this] at h
              exact absurd h (by simp)
          · exact h
        simp [wordBackCond, isWordCharAtI, htc, hwcp]
    · omega
  unfold wordBackward
  rw [hpos1, if_pos hcond, hpos2]
  omega

theorem restart_punct_case (l : List Char) (c : Nat) (hc : c < l.length)
    (hwcc : isWordCharAt l c = false) (hwsc : isWhitespaceAt l c = false)
    (hstart : c = 0 ∨ isWhitespaceAt l (c - 1) = true ∨ isWordCharAt l (c - 1) = true) :
    wordBackward l (wordForward l c) = c := by
  have hpc : punctCond l c = true := by simp [punctCond, hc, hwcc, hwsc]
  have hwcF : wordCond l c = false := by simp [wordCond, hwcc]
  set e := scanWhile (punctCond l) (l.length + 1) c with he
  have he1 : c + 1 ≤ e := scanWhile_progress _ _ _ hpc (by omega)
  have he2 : e ≤ l.length := scanWhile_le _ _ (punctCond_lt l) _ _ (le_of_lt hc)
  have heinv : ∀ i, c ≤ i → i < e → punctCond l i = true := scanWhile_inv _ _ _
  set q := scanWhile (wsCond l) (l.length + 1) e with hq
  have hq1 : e ≤ q := scanWhile_ge _ _ _
  have hq2 : q ≤ l.length := scanWhile_le _ _ (wsCond_lt l) _ _ he2
  have hqinv : ∀ i, e ≤ i → i < q → wsCond l i = true := scanWhile_inv _ _ _
  have hwf : wordForward l c = q := by
    unfold wordForward wsSkip
    rw [if_neg (by simp [hwcF]), if_pos (by simp [hc, hwsc])]
  rw [hwf]
  have hwce : isWordCharAt l (e - 1) = false :=
    punctCond_not_wc (heinv (e - 1) (by omega) (by omega))
  have hwse : isWhitespaceAt l (e - 1) = false :=
    punctCond_not_ws (heinv (e - 1) (by omega) (by omega))
  have hpos1 : wsSkipBack l (q + 1) ((q : Int) - 1) = (e : Int) - 1 := by
    unfold wsSkipBack
    apply scanBackWhile_exact
    · omega
    · intro i h1 h2
      have hg0 : (0 : Int) ≤ i := by omega
      have hlt : i.toNat < q := by omega
      have hgee : e ≤ i.toNat := by omega
      have hws := wsCond_ws (hqinv i.toNat hgee hlt)
      simp [wsBackCond, hg0, isWhitespaceAtI, hws]
    · have htn : ((e : Int) - 1).toNat = e - 1 := by omega
      simp [wsBackCond, isWhitespaceAtI, htn, hwse]
    · omega
  have htn : ((e : Int) - 1).toNat = e - 1 := by omega
  have hcond : (decide ((0 : Int) ≤ (e : Int) - 1) &&
      isWordCharAtI l ((e : Int) - 1)) = false := by
    simp [isWordCharAtI, htn, hwce]
  have hpos2 : scanBackWhile (punctBackCond l) (q + 1) ((e : Int) - 1) = (c : Int) := by
    apply scanBackWhile_exact
    · omega
    · intro i h1 h2
      have h0 : (0 : Int) < i := by omega
      have hi1 : c ≤ (i - 1).toNat := by omega
      have hi2 : (i - 1).toNat < e := by omega
      have hwci := punctCond_not_wc (heinv (i - 1).toNat hi1 hi2)
      have hwsi := punctCond_not_ws (heinv (i - 1).toNat hi1 hi2)
      have hconv : (i - 1).toNat = i.toNat - 1 := by omega
      rw [hconv] at hwci hwsi
      simp [punctBackCond, isWordCharAtI, isWhitespaceAtI, h0, hwci, hwsi]
    · by_cases h0 : c = 0
      · subst h0
        simp [punctBackCond]
      · have htc : ((c : Int) - 1).toNat = c - 1 := by omega
        rcases hstart with h | h | h
        · exact absurd h h0
        · simp [punctBackCond, isWhitespaceAtI, htc, h]
        · simp [punctBackCond, isWordCharAtI, htc, h]
    · omega
  unfold wordBackward
  rw [hpos1, hcond, if_neg (by simp), hpos2]
  omega

/-- C8: from a word-run start `c`, `wordBackward (wordForward l c) = c` (the
restart property), and repeatedly alternating `wordForward` then `wordBackward`
lands only on word-start offsets (indeed always back on `c`). -/
theorem word_restart_property (l : List Char) (c : Nat) (h : isWordStart l c) :
    wordBackward l (wordForward l c) = c ∧
    ∀ n : Nat, isWordStart l ((fun x => wordBackward l (wordForward l x))^[n] c) := by
  obtain ⟨hc, hws, hstart⟩ := h
  have hcore : wordBackward l (wordForward l c) = c := by
    by_cases hwc : isWordCharAt l c = true
    · apply restart_word_case l c hc hwc
      rcases hstart with h0 | h1 | h2
      · exact Or.inl h0
      · exact Or.inr (Or.inl h1)
      · refine Or.inr (Or.inr ?_)
        cases hval : isWordCharAt l (c - 1) with
        | false => rfl
        | true => exact absurd (by rw [hval, hwc]) h2
    · have hwcF : isWordCharAt l c = false := by
        cases hval : isWordCharAt l c with
        | false => rfl
        | true => exact absurd hval hwc
      apply restart_punct_case l c hc hwcF hws
      rcases hstart with h0 | h1 | h2
      · exact Or.inl h0
      · exact Or.inr (Or.inl h1)
      · refine Or.inr (Or.inr ?_)
        cases hval : isWordCharAt l (c - 1) with
        | true => rfl
        | false => exact absurd (by rw [hval, hwcF]) h2
  have hiter : ∀ m : Nat, (fun x => wordBackward l (wordForward l x))^[m] c = c := by
    intro m
    induction m with
    | zero => rfl
    | succ m ih =>
      rw [Function.iterate_succ_apply', ih]
      exact hcore
  refine ⟨hcore, ?_⟩
  intro n
  rw [hiter n]
  exact ⟨hc, hws, hstart⟩

/-- Witness for C8 at the start of the second word of `ab cd`. -/
theorem word_restart_property_witness :
    isWordStart ("ab cd".toList) 3 ∧
    wordBackward ("ab cd".toList) (wordForward ("ab cd".toList) 3) = 3 :=
  ⟨by decide, (word_restart_property ("ab cd".toList) 3 (by decide)).1⟩
